import Mathlib

/-!
Verification of the numeric core of Signal-Studio (src/task2.py): the
signal store (`SignalManager`) and the sampling / reconstruction pipeline
of `GUI`. Machine floats are modelled by real numbers; the random normal
draws of the noise generator are passed in explicitly as a function
`draws : ℕ → ℝ`; operations that raise a Python exception return
`Except String`.
-/

namespace SignalStudio

/-- Signal, as built by `Signal.__init__` in src/task2.py: parallel amplitude
and time sequences, an identifier, a type tag and an optional frequency. -/
structure Signal where
  amplitude : List ℝ
  time : List ℝ
  signal_id : ℕ
  signal_type : String
  frequency : Option ℝ

/-- State of `SignalManager.__init__`: the signal list, the next identifier
(starting at 1) and the current SNR (default 40 dB). The plot callback is
pure UI and is not modelled. -/
structure SignalManager where
  signals : List Signal
  next_signal_id : ℕ
  snr : ℝ

/-- Fresh store, as created by `SignalManager.__init__`. -/
noncomputable def initSignalManager : SignalManager :=
  { signals := [], next_signal_id := 1, snr := 40 }

/-- Model of `np.linspace(start, stop, num)` (endpoint included):
`num` points `start + i·(stop−start)/(num−1)`. -/
noncomputable def linspace (start stop : ℝ) (num : ℕ) : List ℝ :=
  (List.range num).map fun i : ℕ =>
    start + (i : ℝ) * ((stop - start) / ((num : ℝ) - 1))

/-- Model of `np.arange(start, stop, step)`: values `start + k·step` for
`k < ⌈(stop − start)/step⌉` (empty when that ratio is nonpositive). -/
noncomputable def arange (start stop step : ℝ) : List ℝ :=
  (List.range (⌈(stop - start) / step⌉.toNat)).map fun k : ℕ =>
    start + (k : ℝ) * step

/-- Model of `np.interp` on one query point, over the zipped list of
(time, amplitude) pairs, which `np.interp` assumes to be sorted by time
and of equal length: clamp to the end values outside the range, linear
interpolation between neighbouring points inside. -/
noncomputable def interp (x : ℝ) : List (ℝ × ℝ) → ℝ
  | [] => 0
  | [(_, f0)] => f0
  | (x0, f0) :: (x1, f1) :: rest =>
    if x < x0 then f0
    else if x ≤ x1 then f0 + (f1 - f0) * (x - x0) / (x1 - x0)
    else interp x ((x1, f1) :: rest)

/-- Per-file body of `SignalManager.upload_signal`: the parsed file is
`none` when `pd.read_csv` raised (the error is reported and the state is
left unchanged), otherwise the list of numeric columns. With fewer than
two columns the file is rejected and skipped; otherwise column 0 is the
time, column 1 the amplitude, and a new `UPLOADED` signal is appended
under the next identifier. -/
noncomputable def SignalManager.upload_one (m : SignalManager)
    (file : Option (List (List ℝ))) : SignalManager :=
  match file with
  | none => m
  | some cols =>
    if cols.length < 2 then m
    else
      { m with
        signals := m.signals ++
          [{ amplitude := cols.getD 1 [], time := cols.getD 0 [],
             signal_id := m.next_signal_id, signal_type := "UPLOADED",
             frequency := none }],
        next_signal_id := m.next_signal_id + 1 }

/-- `SignalManager.upload_signal`: fold of the per-file body over the
selected files. -/
noncomputable def SignalManager.upload_signal (m : SignalManager)
    (files : List (Option (List (List ℝ)))) : SignalManager :=
  files.foldl SignalManager.upload_one m

/-- `SignalManager.add_signal_component`. The text inputs are modelled by
their parse results: `none` when `float(...)` raises `ValueError` (then
the warning dialog is shown and the state is unchanged). On valid input
the time base is the first stored signal's when one exists, else
`np.linspace(0, 1000/1000, 1000)`, the amplitude is
`A·sin(2π·f·t)` pointwise, and a `sinusoidal` signal is appended under the
next identifier. -/
noncomputable def SignalManager.add_signal_component (m : SignalManager)
    (frequency amplitude_value : Option ℝ) : SignalManager :=
  match frequency, amplitude_value with
  | some f, some A =>
    let time : List ℝ :=
      match m.signals with
      | [] => linspace 0 ((1000 : ℝ) / 1000) 1000
      | s :: _ => s.time
    let amplitude := time.map fun t => A * Real.sin (2 * Real.pi * f * t)
    { m with
      signals := m.signals ++
        [{ amplitude := amplitude, time := time,
           signal_id := m.next_signal_id, signal_type := "sinusoidal",
           frequency := some f }],
      next_signal_id := m.next_signal_id + 1 }
  | _, _ => m

/-- `SignalManager.set_snr`. -/
def SignalManager.set_snr (m : SignalManager) (snr_value : ℝ) : SignalManager :=
  { m with snr := snr_value }

/-- `SignalManager.get_combined_signal_with_noise`. The unit-normal draws
of `np.random.normal(0, 1, n)` are supplied as `draws`. Returns the
(unchanged) state together with the pair the method returns:
`(None, None)` on an empty store, otherwise the shared time base and the
pointwise sum of all amplitudes plus `sqrt(noise_power)`-scaled noise,
where `signal_power` is the mean square of the sum and
`noise_power = signal_power / 10^(snr/10)`. -/
noncomputable def SignalManager.get_combined_signal_with_noise
    (m : SignalManager) (draws : ℕ → ℝ) :
    SignalManager × Option (List ℝ) × Option (List ℝ) :=
  match m.signals with
  | [] => (m, none, none)
  | s0 :: _ =>
    let time := s0.time
    let combined_amplitude :=
      m.signals.foldl (fun acc s => List.zipWith (· + ·) acc s.amplitude)
        (time.map fun _ => (0 : ℝ))
    let signal_power :=
      ((combined_amplitude.map fun a => a ^ 2).sum) / (combined_amplitude.length : ℝ)
    let noise_power := signal_power / (10 : ℝ) ^ (m.snr / 10)
    let noise :=
      (List.range combined_amplitude.length).map fun i =>
        Real.sqrt noise_power * draws i
    let noisy_signal := List.zipWith (· + ·) combined_amplitude noise
    (m, some time, some noisy_signal)

/-- `GUI.take_samples`. Evaluation order of
`np.arange(time[0], time[len(time)-1], 1/sampling_frequency)` in Python:
`time[0]` raises `IndexError` on an empty sequence before anything else;
then `1/sampling_frequency` raises `ZeroDivisionError` when the frequency
is zero. Otherwise the sample instants are
`arange(time[0], time[last], 1/f)` and the sampled amplitudes their
linear interpolation against the original series. -/
noncomputable def take_samples (time amplitude : List ℝ)
    (sampling_frequency : ℝ) : Except String (List ℝ × List ℝ) :=
  match time with
  | [] => .error "IndexError"
  | _ :: _ =>
    if sampling_frequency = 0 then .error "ZeroDivisionError"
    else
      let samples :=
        arange (time.getD 0 0) (time.getD (time.length - 1) 0)
          (1 / sampling_frequency)
      .ok (samples, samples.map fun x => interp x (time.zip amplitude))

/-- Modelled from the spec: `scipy.signal.resample(x, num, t)` is library
code outside this repository. Per its documented contract it returns the
frequency-domain (Fourier) resampling of `x` at `num` points together
with the `num` resampled positions `t[0] + j·(t[1]−t[0])·len(x)/num`,
both of length exactly `num`. The amplitude values are the Dirichlet
(DFT) interpolant of `x` evaluated at the `num` uniform grid points. -/
noncomputable def resample (x : List ℝ) (num : ℕ) (t : List ℝ) :
    List ℝ × List ℝ :=
  let N := x.length
  let newX :=
    (List.range num).map fun j : ℕ =>
      (∑ k ∈ Finset.range N, ∑ n ∈ Finset.range N,
        x.getD n 0 *
          Real.cos (2 * Real.pi * k * ((j : ℝ) / num - (n : ℝ) / N))) / N
  let dt := t.getD 1 0 - t.getD 0 0
  let newT :=
    (List.range num).map fun j : ℕ => t.getD 0 0 + (j : ℝ) * (dt * N / num)
  (newX, newT)

/-- `GUI.reconstruct`: resample the sampled amplitudes to a fixed 5000
points over the sample span, returning
`(reconstructed_amplitude, reconstructed_time)`. -/
noncomputable def reconstruct (samples sampled_amplitude : List ℝ) :
    List ℝ × List ℝ :=
  resample sampled_amplitude 5000 samples

/-- Store invariant: the stored identifiers are exactly `1, 2, …, n` in
insertion order and the next identifier is `n + 1`. -/
def StoreInv (m : SignalManager) : Prop :=
  m.signals.map Signal.signal_id = List.range' 1 m.signals.length ∧
  m.next_signal_id = m.signals.length + 1

/-! Helper lemmas about list indexing and pointwise operations. -/

theorem getD_map_of_lt {α β : Type} [Inhabited β] (l : List α) (g : α → β)
    (i : ℕ) (h : i < l.length) (d : β) (d' : α) :
    (l.map g).getD i d = g (l.getD i d') := by
  rw [List.getD_eq_getElem _ _ (by simpa), List.getElem_map,
    List.getD_eq_getElem _ _ h]

theorem getD_range_map_of_lt {β : Type} (f : ℕ → β) (n i : ℕ) (h : i < n)
    (d : β) : ((List.range n).map f).getD i d = f i := by
  rw [List.getD_eq_getElem _ _ (by simpa), List.getElem_map, List.getElem_range]

theorem getD_zipWith_add (a b : List ℝ) (h : a.length = b.length) (i : ℕ) :
    (List.zipWith (· + ·) a b).getD i 0 = a.getD i 0 + b.getD i 0 := by
  induction a generalizing b i with
  | nil =>
    cases b with
    | nil => simp [List.getD]
    | cons y ys => simp at h
  | cons x xs ih =>
    cases b with
    | nil => simp at h
    | cons y ys =>
      cases i with
      | zero => simp [List.getD]
      | succ j => simpa using ih ys (by simpa using h) j

theorem getD_map_zero (l : List ℝ) (i : ℕ) :
    (l.map fun _ => (0 : ℝ)).getD i 0 = 0 := by
  by_cases h : i < l.length
  · rw [getD_map_of_lt l _ i h 0 0]
  · rw [List.getD_eq_default]
    simpa using h

theorem sum_map_eq_sum_range (l : List ℝ) (g : ℝ → ℝ) :
    (l.map g).sum = ∑ i ∈ Finset.range l.length, g (l.getD i 0) := by
  induction l with
  | nil => simp
  | cons a t ih =>
    rw [List.map_cons, List.sum_cons, List.length_cons, Finset.sum_range_succ']
    simp only [List.getD_cons_succ, List.getD_cons_zero, ih]
    ring

theorem length_foldl_zipWith (sigs : List Signal) (acc : List ℝ)
    (h : ∀ s ∈ sigs, s.amplitude.length = acc.length) :
    (sigs.foldl (fun a s => List.zipWith (· + ·) a s.amplitude) acc).length
      = acc.length := by
  induction sigs generalizing acc with
  | nil => rfl
  | cons s rest ih =>
    rw [List.foldl_cons]
    have hs : s.amplitude.length = acc.length := h s (by simp)
    have hzip : (List.zipWith (· + ·) acc s.amplitude).length = acc.length := by
      simp [List.length_zipWith, hs]
    rw [ih _ (by intro s' hs'; rw [hzip]; exact h s' (by simp [hs'])), hzip]

theorem getD_foldl_zipWith (sigs : List Signal) (acc : List ℝ)
    (h : ∀ s ∈ sigs, s.amplitude.length = acc.length) (i : ℕ) :
    (sigs.foldl (fun a s => List.zipWith (· + ·) a s.amplitude) acc).getD i 0
      = acc.getD i 0 + (sigs.map fun s => s.amplitude.getD i 0).sum := by
  induction sigs generalizing acc with
  | nil => simp
  | cons s rest ih =>
    rw [List.foldl_cons]
    have hs : s.amplitude.length = acc.length := h s (by simp)
    have hzip : (List.zipWith (· + ·) acc s.amplitude).length = acc.length := by
      simp [List.length_zipWith, hs]
    rw [ih _ (by intro s' hs'; rw [hzip]; exact h s' (by simp [hs']))]
    rw [getD_zipWith_add acc s.amplitude hs.symm i]
    simp [add_assoc]

/-! Theorems about the claims. -/

/-- C4: on an empty store, `get_combined_signal_with_noise` returns
`(None, None)` (and the state is untouched). -/
theorem get_combined_empty_returns_none (m : SignalManager) (draws : ℕ → ℝ)
    (h : m.signals = []) :
    m.get_combined_signal_with_noise draws = (m, none, none) := by
  obtain ⟨sigs, next, snr⟩ := m
  simp only at h
  subst h
  rfl

/-- Witness for C4 at the fresh store. -/
theorem get_combined_empty_returns_none_witness :
    initSignalManager.signals = [] ∧
    initSignalManager.get_combined_signal_with_noise (fun _ => 0) =
      (initSignalManager, none, none) :=
  ⟨rfl, get_combined_empty_returns_none initSignalManager (fun _ => 0) rfl⟩

/-- C5: `reconstruct` always produces exactly 5000 amplitude points and
5000 time points, whatever the input samples are. -/
theorem reconstruct_output_length_5000 (samples sampled_amplitude : List ℝ) :
    (reconstruct samples sampled_amplitude).1.length = 5000 ∧
    (reconstruct samples sampled_amplitude).2.length = 5000 := by
  constructor <;>
    simp only [reconstruct, resample, List.length_map, List.length_range]

/-- C6: `take_samples` with sampling frequency 0 raises instead of
returning a result: `IndexError` on an empty time sequence (the index
`time[0]` is evaluated first), `ZeroDivisionError` otherwise. -/
theorem take_samples_zero_frequency_fails (time amplitude : List ℝ) :
    ∃ e, take_samples time amplitude 0 = .error e := by
  cases time with
  | nil => exact ⟨"IndexError", rfl⟩
  | cons t ts => exact ⟨"ZeroDivisionError", by simp [take_samples]⟩

/-- C8: on invalid (non-numeric) frequency or amplitude text,
`add_signal_component` leaves the signal list, the next identifier and
the noise ratio unchanged. -/
theorem add_signal_component_invalid_input_unchanged (m : SignalManager)
    (frequency amplitude_value : Option ℝ)
    (h : frequency = none ∨ amplitude_value = none) :
    (m.add_signal_component frequency amplitude_value).signals = m.signals ∧
    (m.add_signal_component frequency amplitude_value).next_signal_id
      = m.next_signal_id ∧
    (m.add_signal_component frequency amplitude_value).snr = m.snr := by
  rcases h with h | h
  · subst h; cases amplitude_value <;> exact ⟨rfl, rfl, rfl⟩
  · subst h; cases frequency <;> exact ⟨rfl, rfl, rfl⟩

/-- Witness for C8: an invalid frequency on the fresh store. -/
theorem add_signal_component_invalid_input_unchanged_witness :
    ((none : Option ℝ) = none ∨ (some (1 : ℝ)) = none) ∧
    ((initSignalManager.add_signal_component none (some 1)).signals
        = initSignalManager.signals ∧
      (initSignalManager.add_signal_component none (some 1)).next_signal_id
        = initSignalManager.next_signal_id ∧
      (initSignalManager.add_signal_component none (some 1)).snr
        = initSignalManager.snr) :=
  ⟨Or.inl rfl,
    add_signal_component_invalid_input_unchanged initSignalManager none
      (some 1) (Or.inl rfl)⟩

/-- C10: `get_combined_signal_with_noise` is read-only on the store: the
signal list (hence every stored signal's time and amplitude), the next
identifier and the noise ratio are unchanged. -/
theorem get_combined_signal_readonly (m : SignalManager) (draws : ℕ → ℝ) :
    (m.get_combined_signal_with_noise draws).1.signals = m.signals ∧
    (m.get_combined_signal_with_noise draws).1.next_signal_id
      = m.next_signal_id ∧
    (m.get_combined_signal_with_noise draws).1.snr = m.snr := by
  obtain ⟨sigs, next, snr⟩ := m
  cases sigs with
  | nil => exact ⟨rfl, rfl, rfl⟩
  | cons s rest => exact ⟨rfl, rfl, rfl⟩

set_option maxRecDepth 10000 in
/-- C3: on valid numeric input, `add_signal_component` appends one signal
whose time base is the first stored signal's when one exists and the
default 1000-point, 1-second `linspace` base otherwise, and whose
amplitude is pointwise `A·sin(2π·f·t)`. -/
theorem add_signal_component_valid_appends_sine (m : SignalManager)
    (f A : ℝ) :
    ∃ sig : Signal,
      (m.add_signal_component (some f) (some A)).signals
        = m.signals ++ [sig] ∧
      (m.add_signal_component (some f) (some A)).next_signal_id
        = m.next_signal_id + 1 ∧
      (m.signals = [] → sig.time = linspace 0 1 1000 ∧
        sig.time.length = 1000) ∧
      (∀ s0 rest, m.signals = s0 :: rest → sig.time = s0.time) ∧
      sig.amplitude.length = sig.time.length ∧
      (∀ i, i < sig.time.length →
        sig.amplitude.getD i 0
          = A * Real.sin (2 * Real.pi * f * sig.time.getD i 0)) := by
  obtain ⟨sigs, next, snr⟩ := m
  cases sigs with
  | nil =>
    refine ⟨_, rfl, rfl, fun _ => ⟨?_, by simp [linspace]⟩, ?_, ?_, ?_⟩
    · show linspace 0 ((1000 : ℝ) / 1000) 1000 = linspace 0 1 1000
      norm_num
    · intro s0 rest h
      exact absurd h (by simp)
    · exact List.length_map _ _
    · intro i hi
      have hi' : i < (linspace 0 ((1000 : ℝ) / 1000) 1000).length := hi
      exact getD_map_of_lt (linspace 0 ((1000 : ℝ) / 1000) 1000)
        (fun t => A * Real.sin (2 * Real.pi * f * t)) i hi' 0 0
  | cons s rest =>
    refine ⟨_, rfl, rfl, fun h => absurd h (by simp), ?_, ?_, ?_⟩
    · intro s0 rest' h
      injection h with h1 _
      rw [h1]
    · exact List.length_map _ _
    · intro i hi
      exact getD_map_of_lt s.time
        (fun t => A * Real.sin (2 * Real.pi * f * t)) i hi 0 0

/-- C7: loading one valid file with at least two columns of `N` rows
appends exactly one `UPLOADED` signal with time and amplitude of
length `N`, and the signal count grows by exactly one. -/
theorem upload_valid_file_appends_one (m : SignalManager)
    (cols : List (List ℝ)) (N : ℕ) (hc : 2 ≤ cols.length)
    (ht : (cols.getD 0 []).length = N) (ha : (cols.getD 1 []).length = N)
    (_hN : 1 ≤ N) :
    ∃ sig : Signal,
      (m.upload_one (some cols)).signals = m.signals ++ [sig] ∧
      sig.time.length = N ∧ sig.amplitude.length = N ∧
      (m.upload_one (some cols)).signals.length = m.signals.length + 1 := by
  simp only [SignalManager.upload_one]
  rw [if_neg (by omega)]
  exact ⟨_, rfl, ht, ha, by simp⟩

/-- Witness for C7: a two-column, one-row file loaded into the fresh
store. -/
theorem upload_valid_file_appends_one_witness :
    2 ≤ ([[(0 : ℝ)], [1]] : List (List ℝ)).length ∧
    (([[(0 : ℝ)], [1]] : List (List ℝ)).getD 0 []).length = 1 ∧
    (([[(0 : ℝ)], [1]] : List (List ℝ)).getD 1 []).length = 1 ∧
    (1 : ℕ) ≤ 1 ∧
    (∃ sig : Signal,
      (initSignalManager.upload_one (some [[(0 : ℝ)], [1]])).signals
        = initSignalManager.signals ++ [sig] ∧
      sig.time.length = 1 ∧ sig.amplitude.length = 1 ∧
      (initSignalManager.upload_one (some [[(0 : ℝ)], [1]])).signals.length
        = initSignalManager.signals.length + 1) :=
  ⟨by norm_num, by simp [List.getD], by simp [List.getD], le_rfl,
    upload_valid_file_appends_one initSignalManager [[(0 : ℝ)], [1]] 1
      (by norm_num) (by simp [List.getD]) (by simp [List.getD]) le_rfl⟩

theorem storeInv_append (sigs : List Signal) (next : ℕ) (snr : ℝ)
    (s : Signal) (h1 : sigs.map Signal.signal_id = List.range' 1 sigs.length)
    (h2 : next = sigs.length + 1) (hs : s.signal_id = next) :
    StoreInv ⟨sigs ++ [s], next + 1, snr⟩ := by
  constructor
  · show (sigs ++ [s]).map Signal.signal_id
      = List.range' 1 (sigs ++ [s]).length
    rw [List.map_append, h1, List.length_append]
    simp only [List.map_cons, List.map_nil, List.length_cons, List.length_nil]
    rw [show sigs.length + (0 + 1) = sigs.length + 1 by omega,
      List.range'_1_concat 1 sigs.length]
    simp [hs, h2]
    omega
  · show next + 1 = (sigs ++ [s]).length + 1
    simp [h2]

theorem storeInv_pairwise (m : SignalManager) (hm : StoreInv m) :
    (m.signals.map Signal.signal_id).Pairwise (· < ·) := by
  rw [hm.1]
  exact List.pairwise_lt_range' 1 m.signals.length

theorem storeInv_id_bounds (m : SignalManager) (hm : StoreInv m) :
    ∀ s ∈ m.signals, 1 ≤ s.signal_id ∧ s.signal_id < m.next_signal_id := by
  intro s hs
  have hmem : s.signal_id ∈ m.signals.map Signal.signal_id :=
    List.mem_map_of_mem _ hs
  rw [hm.1] at hmem
  have h := List.mem_range'_1.mp hmem
  have h2 := hm.2
  omega

/-- C9: each store operation (load one file, add a synthetic component,
set the noise ratio, get the combined noisy signal) preserves the
identifier invariant `StoreInv` and only ever appends to the signal list;
under that invariant the identifiers are strictly increasing in insertion
order, unique, start at 1, and are all below the next identifier. -/
theorem store_ops_preserve_id_invariant (m : SignalManager)
    (hm : StoreInv m) :
    (∀ file, StoreInv (m.upload_one file) ∧
      ∃ tail, (m.upload_one file).signals = m.signals ++ tail) ∧
    (∀ frequency amplitude_value,
      StoreInv (m.add_signal_component frequency amplitude_value) ∧
      ∃ tail, (m.add_signal_component frequency amplitude_value).signals
        = m.signals ++ tail) ∧
    (∀ v, StoreInv (m.set_snr v) ∧ (m.set_snr v).signals = m.signals) ∧
    (∀ draws, StoreInv (m.get_combined_signal_with_noise draws).1 ∧
      (m.get_combined_signal_with_noise draws).1.signals = m.signals) ∧
    (m.signals.map Signal.signal_id).Pairwise (· < ·) ∧
    (m.signals.map Signal.signal_id).Nodup ∧
    (∀ s ∈ m.signals, 1 ≤ s.signal_id ∧ s.signal_id < m.next_signal_id) ∧
    (m.signals ≠ [] → (m.signals.map Signal.signal_id).getD 0 0 = 1) := by
  obtain ⟨sigs, next, snr⟩ := m
  obtain ⟨h1, h2⟩ := hm
  simp only at h1 h2
  refine ⟨?_, ?_, ?_, ?_, ?_, ?_, ?_, ?_⟩
  · intro file
    cases file with
    | none => exact ⟨⟨h1, h2⟩, [], by rw [List.append_nil]; exact rfl⟩
    | some cols =>
      by_cases hlen : cols.length < 2
      · refine ⟨?_, [], ?_⟩
        · show StoreInv
            (SignalManager.upload_one ⟨sigs, next, snr⟩ (some cols))
          simp only [SignalManager.upload_one, if_pos hlen]
          exact ⟨h1, h2⟩
        · show (SignalManager.upload_one ⟨sigs, next, snr⟩ (some cols)).signals
            = sigs ++ []
          simp only [SignalManager.upload_one, if_pos hlen, List.append_nil]
      · constructor
        · show StoreInv
            (SignalManager.upload_one ⟨sigs, next, snr⟩ (some cols))
          simp only [SignalManager.upload_one, if_neg hlen]
          exact storeInv_append sigs next snr _ h1 h2 rfl
        · refine ⟨[⟨cols.getD 1 [], cols.getD 0 [], next, "UPLOADED", none⟩],
            ?_⟩
          show (SignalManager.upload_one ⟨sigs, next, snr⟩ (some cols)).signals
            = _
          simp only [SignalManager.upload_one, if_neg hlen]
  · intro frequency amplitude_value
    match frequency, amplitude_value with
    | none, none => exact ⟨⟨h1, h2⟩, [], by rw [List.append_nil]; exact rfl⟩
    | none, some A => exact ⟨⟨h1, h2⟩, [], by rw [List.append_nil]; exact rfl⟩
    | some f, none => exact ⟨⟨h1, h2⟩, [], by rw [List.append_nil]; exact rfl⟩
    | some f, some A =>
      constructor
      · exact storeInv_append sigs next snr _ h1 h2 rfl
      · exact ⟨_, rfl⟩
  · intro v
    exact ⟨⟨h1, h2⟩, rfl⟩
  · intro draws
    cases sigs with
    | nil => exact ⟨⟨h1, h2⟩, rfl⟩
    | cons s rest => exact ⟨⟨h1, h2⟩, rfl⟩
  · exact storeInv_pairwise ⟨sigs, next, snr⟩ ⟨h1, h2⟩
  · exact ((storeInv_pairwise ⟨sigs, next, snr⟩ ⟨h1, h2⟩).imp
      fun h => ne_of_lt h)
  · exact storeInv_id_bounds ⟨sigs, next, snr⟩ ⟨h1, h2⟩
  · intro hne
    rw [h1]
    cases hcase : sigs with
    | nil => exact absurd hcase hne
    | cons s rest => simp [List.range'_succ, List.getD]

/-- Witness for C9 at the fresh store, whose invariant holds trivially. -/
theorem store_ops_preserve_id_invariant_witness :
    StoreInv initSignalManager ∧
    ((∀ file, StoreInv (initSignalManager.upload_one file) ∧
      ∃ tail, (initSignalManager.upload_one file).signals
        = initSignalManager.signals ++ tail) ∧
    (∀ frequency amplitude_value,
      StoreInv
        (initSignalManager.add_signal_component frequency amplitude_value) ∧
      ∃ tail,
        (initSignalManager.add_signal_component
          frequency amplitude_value).signals
          = initSignalManager.signals ++ tail) ∧
    (∀ v, StoreInv (initSignalManager.set_snr v) ∧
      (initSignalManager.set_snr v).signals = initSignalManager.signals) ∧
    (∀ draws,
      StoreInv (initSignalManager.get_combined_signal_with_noise draws).1 ∧
      (initSignalManager.get_combined_signal_with_noise draws).1.signals
        = initSignalManager.signals) ∧
    (initSignalManager.signals.map Signal.signal_id).Pairwise (· < ·) ∧
    (initSignalManager.signals.map Signal.signal_id).Nodup ∧
    (∀ s ∈ initSignalManager.signals, 1 ≤ s.signal_id ∧
      s.signal_id < initSignalManager.next_signal_id) ∧
    (initSignalManager.signals ≠ [] →
      (initSignalManager.signals.map Signal.signal_id).getD 0 0 = 1)) :=
  ⟨⟨rfl, rfl⟩, store_ops_preserve_id_invariant initSignalManager ⟨rfl, rfl⟩⟩

theorem arange_spec (start stop step : ℝ) (hstep : 0 < step) :
    (arange start stop step).length = (⌈(stop - start) / step⌉).toNat ∧
    (∀ i, i < (arange start stop step).length →
      (arange start stop step).getD i 0 = start + (i : ℝ) * step) ∧
    (∀ x ∈ arange start stop step, x < stop) := by
  refine ⟨by simp [arange], ?_, ?_⟩
  · intro i hi
    have hi' : i < (⌈(stop - start) / step⌉).toNat := by
      simpa [arange] using hi
    exact getD_range_map_of_lt _ _ i hi' 0
  · intro x hx
    simp only [arange, List.mem_map, List.mem_range] at hx
    obtain ⟨k, hk, rfl⟩ := hx
    have hkc : (k : ℤ) < ⌈(stop - start) / step⌉ := by omega
    have hkr : (k : ℝ) < (stop - start) / step := by
      have := Int.lt_ceil.mp hkc
      exact_mod_cast this
    have hmul : (k : ℝ) * step < ((stop - start) / step) * step :=
      mul_lt_mul_of_pos_right hkr hstep
    rw [div_mul_cancel₀ _ (ne_of_gt hstep)] at hmul
    linarith

/-- C1 (amended): for a nonempty time series with first value `t0`, last
value `tN`, `t0 < tN`, and sampling frequency `f > 0`, `take_samples`
produces sample instants `t0 + i/f`, all strictly below `tN`, whose count
is the CEILING `⌈(tN−t0)·f⌉` (the floor of the claim is wrong whenever
`(tN−t0)·f` is not an integer; the two agree when it is). -/
theorem take_samples_uniform_halfopen (time amplitude : List ℝ)
    (t0 tN f : ℝ) (hne : time ≠ []) (h0 : time.getD 0 0 = t0)
    (hN : time.getD (time.length - 1) 0 = tN) (hlt : t0 < tN) (hf : 0 < f) :
    ∃ samples sampled : List ℝ,
      take_samples time amplitude f = .ok (samples, sampled) ∧
      samples.length = (⌈(tN - t0) * f⌉).toNat ∧
      1 ≤ samples.length ∧
      samples.getD 0 0 = t0 ∧
      (∀ i, i < samples.length →
        samples.getD i 0 = t0 + (i : ℝ) * (1 / f)) ∧
      (∀ x ∈ samples, x < tN) := by
  have hstep : (0 : ℝ) < 1 / f := by positivity
  have hconv : (tN - t0) / (1 / f) = (tN - t0) * f := by
    rw [one_div, div_eq_mul_inv, inv_inv]
  have hlen1 : 1 ≤ (⌈(tN - t0) / (1 / f)⌉).toNat := by
    have hpos : (0 : ℝ) < (tN - t0) / (1 / f) := by
      rw [hconv]; exact mul_pos (by linarith) hf
    have := Int.ceil_pos.mpr hpos
    omega
  obtain ⟨hlen, hget, hmem⟩ := arange_spec t0 tN (1 / f) hstep
  cases time with
  | nil => exact absurd rfl hne
  | cons t ts =>
    refine ⟨arange t0 tN (1 / f),
      (arange t0 tN (1 / f)).map fun x => interp x ((t :: ts).zip amplitude),
      ?_, ?_, ?_, ?_, hget, hmem⟩
    · show take_samples (t :: ts) amplitude f = _
      simp only [take_samples, if_neg (ne_of_gt hf)]
      rw [h0, hN]
    · rw [hlen, hconv]
    · omega
    · have h1 : 0 < (arange t0 tN (1 / f)).length := by omega
      rw [hget 0 h1]
      simp

/-- Counterexample to C1 as stated: over the span `[0, 1)` at frequency
`5/2` the code produces `⌈5/2⌉ = 3` samples, not `⌊5/2⌋ = 2`. -/
theorem take_samples_count_floor_counterexample :
    (take_samples [(0 : ℝ), 1] [0, 0] (5 / 2)).map (fun p => p.1.length)
      = .ok 3 ∧
    (⌊(((1 : ℝ) - 0)) * (5 / 2)⌋).toNat = 2 := by
  constructor
  · simp only [take_samples, if_neg (by norm_num : ¬ (5 / 2 : ℝ) = 0)]
    simp only [Except.map]
    congr 1
    simp only [arange, List.length_map, List.length_range]
    have h : (([(0 : ℝ), 1]).getD (([(0 : ℝ), 1]).length - 1) 0
        - ([(0 : ℝ), 1]).getD 0 0) / (1 / (5 / 2)) = 5 / 2 := by
      norm_num [List.getD]
    rw [h]
    have h2 : ⌈(5 / 2 : ℝ)⌉ = 3 := by
      rw [Int.ceil_eq_iff]
      norm_num
    rw [h2]
    rfl
  · norm_num
    decide

/-- Witness for the amended C1: two time points `[0, 1]` sampled at 2 Hz. -/
theorem take_samples_uniform_halfopen_witness :
    ([(0 : ℝ), 1] ≠ []) ∧
    ([(0 : ℝ), 1].getD 0 0 = 0) ∧
    ([(0 : ℝ), 1].getD ([(0 : ℝ), 1].length - 1) 0 = 1) ∧
    ((0 : ℝ) < 1) ∧ ((0 : ℝ) < 2) ∧
    (∃ samples sampled : List ℝ,
      take_samples [(0 : ℝ), 1] [0, 0] 2 = .ok (samples, sampled) ∧
      samples.length = (⌈((1 : ℝ) - 0) * 2⌉).toNat ∧
      1 ≤ samples.length ∧
      samples.getD 0 0 = 0 ∧
      (∀ i, i < samples.length →
        samples.getD i 0 = 0 + (i : ℝ) * (1 / 2)) ∧
      (∀ x ∈ samples, x < 1)) :=
  ⟨by simp, by simp [List.getD], by simp [List.getD], by norm_num,
    by norm_num,
    take_samples_uniform_halfopen [(0 : ℝ), 1] [0, 0] 0 1 2 (by simp)
      (by simp [List.getD]) (by simp [List.getD]) (by norm_num)
      (by norm_num)⟩

theorem get_combined_noise_model (m : SignalManager) (draws : ℕ → ℝ)
    (s0 : Signal) (rest : List Signal) (hs : m.signals = s0 :: rest)
    (hlen : ∀ s ∈ m.signals, s.amplitude.length = s0.time.length) :
    ∃ noisy : List ℝ,
      m.get_combined_signal_with_noise draws
        = (m, some s0.time, some noisy) ∧
      noisy.length = s0.time.length ∧
      ∀ i, i < s0.time.length →
        noisy.getD i 0 =
          (m.signals.map fun s => s.amplitude.getD i 0).sum +
          Real.sqrt
            (((∑ j ∈ Finset.range s0.time.length,
                ((m.signals.map fun s => s.amplitude.getD j 0).sum) ^ 2)
              / (s0.time.length : ℝ)) / (10 : ℝ) ^ (m.snr / 10))
            * draws i := by
  obtain ⟨sigs, next, snr⟩ := m
  simp only at hs hlen ⊢
  subst hs
  simp only [SignalManager.get_combined_signal_with_noise]
  have hlen' : ∀ s ∈ s0 :: rest,
      s.amplitude.length = (s0.time.map fun _ => (0 : ℝ)).length := by
    intro s hs
    rw [List.length_map]
    exact hlen s hs
  have hcl : ((s0 :: rest).foldl
      (fun acc s => List.zipWith (· + ·) acc s.amplitude)
      (s0.time.map fun _ => (0 : ℝ))).length = s0.time.length := by
    rw [length_foldl_zipWith (s0 :: rest) _ hlen', List.length_map]
  have hcg : ∀ i, ((s0 :: rest).foldl
      (fun acc s => List.zipWith (· + ·) acc s.amplitude)
      (s0.time.map fun _ => (0 : ℝ))).getD i 0
      = ((s0 :: rest).map fun s => s.amplitude.getD i 0).sum := by
    intro i
    rw [getD_foldl_zipWith (s0 :: rest) _ hlen' i, getD_map_zero, zero_add]
  have hsum : ((((s0 :: rest).foldl
      (fun acc s => List.zipWith (· + ·) acc s.amplitude)
      (s0.time.map fun _ => (0 : ℝ))).map fun a => a ^ 2)).sum
      = ∑ x ∈ Finset.range s0.time.length,
          (((s0 :: rest).map fun s => s.amplitude.getD x 0).sum) ^ 2 := by
    rw [sum_map_eq_sum_range _ (fun a => a ^ 2), hcl]
    exact Finset.sum_congr rfl fun x _ => by rw [hcg x]
  refine ⟨_, rfl, ?_, ?_⟩
  · rw [List.length_zipWith, List.length_map, List.length_range, hcl,
      min_self]
  · intro i hi
    rw [getD_zipWith_add _ _
      (by rw [List.length_map, List.length_range]) i]
    rw [hcg i]
    rw [getD_range_map_of_lt _ _ i (by rw [hcl]; exact hi) 0]
    rw [hsum, hcl]

/-- Concrete signal used in the witness for the noise model: amplitude
`[10, −10]` on time base `[0, 1]`, giving mean-square power 100. -/
noncomputable def noiseWitnessSignal : Signal :=
  { amplitude := [10, -10], time := [0, 1], signal_id := 1,
    signal_type := "UPLOADED", frequency := none }

/-- Store holding only `noiseWitnessSignal`, with SNR 20 dB. -/
noncomputable def noiseWitnessManager : SignalManager :=
  { signals := [noiseWitnessSignal], next_signal_id := 2, snr := 20 }

/-- Witness for C2 at a one-signal store with unit draws. -/
theorem get_combined_noise_model_witness :
    noiseWitnessManager.signals = noiseWitnessSignal :: [] ∧
    (∀ s ∈ noiseWitnessManager.signals,
      s.amplitude.length = noiseWitnessSignal.time.length) ∧
    (∃ noisy : List ℝ,
      noiseWitnessManager.get_combined_signal_with_noise (fun _ => 1)
        = (noiseWitnessManager, some noiseWitnessSignal.time, some noisy) ∧
      noisy.length = noiseWitnessSignal.time.length ∧
      ∀ i, i < noiseWitnessSignal.time.length →
        noisy.getD i 0 =
          (noiseWitnessManager.signals.map fun s =>
            s.amplitude.getD i 0).sum +
          Real.sqrt
            (((∑ j ∈ Finset.range noiseWitnessSignal.time.length,
                ((noiseWitnessManager.signals.map fun s =>
                  s.amplitude.getD j 0).sum) ^ 2)
              / (noiseWitnessSignal.time.length : ℝ))
              / (10 : ℝ) ^ (noiseWitnessManager.snr / 10)) * 1) :=
  ⟨rfl, by simp [noiseWitnessManager, noiseWitnessSignal],
    get_combined_noise_model noiseWitnessManager (fun _ => 1)
      noiseWitnessSignal [] rfl
      (by simp [noiseWitnessManager, noiseWitnessSignal])⟩

end SignalStudio
